import Mathlib

/-!
Verification of the 1D scalar lattice field-theory MCMC engine described in
the repository specification.  The notebook `qcd_lattice_mcmc.ipynb` drives
four simulation modules (`field_theory_1d`, `hmc`, `metropolis`, `utils`)
that are not part of the checked-in source tree, so the engine below is
modelled from the specification's component contracts (LatticeAction,
MetropolisSampler, LeapfrogIntegrator, HMCSampler, TimeSeriesStatistics)
and the stated properties are settled against that model.  Exact field
arithmetic (ℚ, ℝ) stands in for IEEE floating point throughout.
-/

namespace LatticeMCMC

variable {R : Type} [Field R] {N : ℕ}

/-- Modelled from the spec: the per-site summand of the action of the missing
`field_theory_1d` module, S[φ] = Σₓ [ ½(φ(x+1)−φ(x))² + ½ m² φ(x)² + λ φ(x)⁴ ],
with site indices taken modulo N (periodic boundary, `Fin N` arithmetic). -/
def siteTerm [NeZero N] (m2 lam : R) (φ : Fin N → R) (x : Fin N) : R :=
  (φ (x + 1) - φ x) ^ 2 / 2 + m2 * φ x ^ 2 / 2 + lam * φ x ^ 4

/-- Modelled from the spec: `LatticeAction.action()` — the full action S[φ],
computed from scratch in O(N), of the missing `field_theory_1d` module. -/
def action [NeZero N] (m2 lam : R) (φ : Fin N → R) : R :=
  ∑ x : Fin N, siteTerm m2 lam φ x

/-- Modelled from the spec: `LatticeAction.local_action_delta(site, v)` — ΔS
from changing only φ(site) to v, computed in O(1) from the two periodic
neighbour couplings plus the single-site mass/quartic terms, of the missing
`field_theory_1d` module. -/
def local_action_delta [NeZero N] (m2 lam : R) (φ : Fin N → R) (x : Fin N)
    (v : R) : R :=
  ((φ (x + 1) - v) ^ 2 / 2 + (v - φ (x - 1)) ^ 2 / 2
      + m2 * v ^ 2 / 2 + lam * v ^ 4)
    - ((φ (x + 1) - φ x) ^ 2 / 2 + (φ x - φ (x - 1)) ^ 2 / 2
      + m2 * φ x ^ 2 / 2 + lam * φ x ^ 4)

/-- Modelled from the spec: `LatticeAction.force(site)` =
−∂S/∂φ(site) = (φ(site+1) − 2φ(site) + φ(site−1)) − m²φ(site) − 4λφ(site)³,
of the missing `field_theory_1d` module. -/
def force [NeZero N] (m2 lam : R) (φ : Fin N → R) (x : Fin N) : R :=
  (φ (x + 1) - 2 * φ x + φ (x - 1)) - m2 * φ x - 4 * lam * φ x ^ 3

/-- Modelled from the spec: `LatticeAction.set(site, value)` — the single
mutator of the missing `field_theory_1d` module, rendered functionally. -/
def set (φ : Fin N → R) (x : Fin N) (v : R) : Fin N → R :=
  Function.update φ x v

/-- Modelled from the spec: the action written exactly as the spec's formula,
with plain natural-number site indices reduced modulo N (periodic boundary). -/
def actionSpec [NeZero N] (m2 lam : R) (φ : Fin N → R) : R :=
  ∑ i ∈ Finset.range N,
    ((φ ⟨(i + 1) % N, Nat.mod_lt _ (Nat.pos_of_ne_zero (NeZero.ne N))⟩
        - φ ⟨i % N, Nat.mod_lt _ (Nat.pos_of_ne_zero (NeZero.ne N))⟩) ^ 2 / 2
      + m2 * φ ⟨i % N, Nat.mod_lt _ (Nat.pos_of_ne_zero (NeZero.ne N))⟩ ^ 2 / 2
      + lam * φ ⟨i % N, Nat.mod_lt _ (Nat.pos_of_ne_zero (NeZero.ne N))⟩ ^ 4)

/-- Replay a list of accepted single-site updates on a configuration. -/
def applyUpdates (φ : Fin N → R) : List (Fin N × R) → (Fin N → R)
  | [] => φ
  | u :: us => applyUpdates (set φ u.1 u.2) us

/-- Modelled from the spec: the incrementally maintained action value — start
from a known action value and add `local_action_delta` for each accepted
update instead of recomputing S from scratch. -/
def incrementalAction [NeZero N] (m2 lam : R) (φ : Fin N → R) (S : R) :
    List (Fin N × R) → R
  | [] => S
  | u :: us =>
      incrementalAction m2 lam (set φ u.1 u.2)
        (S + local_action_delta m2 lam φ u.1 u.2) us

/-- Modelled from the spec: the drift substep of the missing `hmc` module's
leapfrog integrator — full-step field update φ ← φ + ε·p, momentum kept. -/
def lfDrift (ε : R) (s : (Fin N → R) × (Fin N → R)) :
    (Fin N → R) × (Fin N → R) :=
  (fun x => s.1 x + ε * s.2 x, s.2)

/-- Modelled from the spec: the kick substep of the missing `hmc` module's
leapfrog integrator — momentum update p ← p + c·F(φ), field kept. -/
def lfKick [NeZero N] (m2 lam c : R) (s : (Fin N → R) × (Fin N → R)) :
    (Fin N → R) × (Fin N → R) :=
  (s.1, fun x => s.2 x + c * force m2 lam s.1 x)

/-- Modelled from the spec: `LeapfrogIntegrator` of the missing `hmc` module —
half-step momentum kick, then for k = 1..L a full field drift with a full
momentum kick between consecutive drifts (k < L), then a final half kick.
Rendered as: half kick, drift, (kick then drift) repeated L−1 times,
half kick. -/
def leapfrog [NeZero N] (m2 lam ε : R) (L : ℕ)
    (s : (Fin N → R) × (Fin N → R)) : (Fin N → R) × (Fin N → R) :=
  lfKick m2 lam (ε / 2)
    ((fun t => lfDrift ε (lfKick m2 lam ε t))^[L - 1]
      (lfDrift ε (lfKick m2 lam (ε / 2) s)))

/-- Error taxonomy of the spec: invalid lattice, invalid run parameters, or a
statistical estimator given too few data points. -/
inductive SimError where
  | InvalidConfiguration
  | InvalidParameters
  | InsufficientSamples
  deriving DecidableEq

/-- Modelled from the spec: the Metropolis acceptance probability
min(1, exp(−ΔS)) of the missing `metropolis`/`field_theory_1d` modules. -/
noncomputable def acceptProb (dS : ℝ) : ℝ :=
  min 1 (Real.exp (-dS))

/-- Modelled from the spec: the Metropolis accept decision of the missing
`metropolis`/`field_theory_1d` modules — a single uniform draw u ∈ [0,1)
accepts iff u < exp(−ΔS). -/
noncomputable def metAccept (dS u : ℝ) : Bool :=
  decide (u < Real.exp (-dS))

/-- Chain statistics record of the spec's data model: current configuration
plus proposal and accept counters. -/
structure ChainState (N : ℕ) where
  φ : Fin N → ℝ
  proposals : ℕ
  accepts : ℕ

/-- Modelled from the spec: one Metropolis single-site proposal of the missing
`field_theory_1d` module — draw δ ~ U(−ε,ε) (the random stream `rand`,
indexed by the proposal counter, supplies the draws), compute
ΔS = `local_action_delta`, accept iff u < exp(−ΔS) (then `set` the new value
and count one accept), and always count exactly one proposal. -/
noncomputable def metSiteStep {N : ℕ} [NeZero N] (m2 lam eps : ℝ)
    (rand : ℕ → ℝ × ℝ) (x : Fin N) (s : ChainState N) : ChainState N :=
  let v := s.φ x + eps * (rand s.proposals).1
  let dS := local_action_delta m2 lam s.φ x v
  if metAccept dS (rand s.proposals).2 then
    ⟨set s.φ x v, s.proposals + 1, s.accepts + 1⟩
  else ⟨s.φ, s.proposals + 1, s.accepts⟩

/-- Modelled from the spec: one Metropolis sweep — one proposal at each site
x = 0..N−1 in fixed order, so one sweep = N proposals. -/
noncomputable def metSweep {N : ℕ} [NeZero N] (m2 lam eps : ℝ)
    (rand : ℕ → ℝ × ℝ) (s : ChainState N) : ChainState N :=
  (List.finRange N).foldl (fun t x => metSiteStep m2 lam eps rand x t) s

/-- Cold-start chain state: zero configuration, zero counters. -/
def initState (N : ℕ) : ChainState N :=
  ⟨fun _ => 0, 0, 0⟩

/-- Reported acceptance rate accepts/proposals of a completed chain. -/
noncomputable def acceptanceRate {N : ℕ} (s : ChainState N) : ℝ :=
  (s.accepts : ℝ) / (s.proposals : ℝ)

/-- Result record of a completed run: final chain state and the reported
acceptance rate. -/
structure RunResult (N : ℕ) where
  final : ChainState N
  acceptance_rate : ℝ

/-- Modelled from the spec: `FieldTheory1D.run_simulation` of the missing
`field_theory_1d` module — `step_size <= 0`, `n_sweeps < burn_in` or `N < 2`
fail with `InvalidParameters` synchronously, before any sampling; otherwise
run `n_sweeps` Metropolis sweeps from a cold start and report
acceptance_rate = accepts/proposals over the entire run. -/
noncomputable def run_simulation (N : ℕ) [NeZero N] (m2 lam : ℝ)
    (n_sweeps : ℕ) (step_size : ℝ) (burn_in : ℕ) (rand : ℕ → ℝ × ℝ) :
    Except SimError (RunResult N) :=
  if step_size ≤ 0 ∨ n_sweeps < burn_in ∨ N < 2 then
    Except.error SimError.InvalidParameters
  else
    let final := (fun s => metSweep m2 lam step_size rand s)^[n_sweeps]
      (initState N)
    Except.ok ⟨final, acceptanceRate final⟩

/-- Modelled from the spec: the HMC Hamiltonian H = ½Σp(x)² + S[φ] of the
missing `hmc` module. -/
noncomputable def hamiltonian {N : ℕ} [NeZero N] (m2 lam : ℝ)
    (s : (Fin N → ℝ) × (Fin N → ℝ)) : ℝ :=
  (∑ x, s.2 x ^ 2) / 2 + action m2 lam s.1

/-- Modelled from the spec: `HMCSampler.trajectory()` of the missing `hmc`
module — with freshly drawn momentum p and uniform draw u, compute
H₀, run the leapfrog integrator on a copy of (φ, p), compute H₁, accept iff
u < exp(−(H₁−H₀)); on accept the canonical φ is replaced by the evolved φ′,
on reject it is returned unchanged; the momentum is discarded either way.
Returns the new canonical configuration and the accept flag. -/
noncomputable def hmcTrajectory {N : ℕ} [NeZero N] (m2 lam eps : ℝ) (L : ℕ)
    (φ p : Fin N → ℝ) (u : ℝ) : (Fin N → ℝ) × Bool :=
  if metAccept (hamiltonian m2 lam (leapfrog m2 lam eps L (φ, p))
      - hamiltonian m2 lam (φ, p)) u then
    ((leapfrog m2 lam eps L (φ, p)).1, true)
  else (φ, false)

/-- Modelled from the spec: one HMC step on the chain state — fresh momentum
and uniform draw from the random stream (indexed by the proposal counter),
one trajectory, one proposal counted and at most one accept. -/
noncomputable def hmcStep {N : ℕ} [NeZero N] (m2 lam eps : ℝ) (L : ℕ)
    (rand : ℕ → (Fin N → ℝ) × ℝ) (s : ChainState N) : ChainState N :=
  let out := hmcTrajectory m2 lam eps L s.φ (rand s.proposals).1
    (rand s.proposals).2
  ⟨out.1, s.proposals + 1, if out.2 then s.accepts + 1 else s.accepts⟩

/-- Modelled from the spec: `HMCFieldTheory1D.run_hmc_simulation` of the
missing `hmc` module — ε ≤ 0, L < 1 or N < 2 fail with `InvalidParameters`
synchronously, before any sampling; otherwise run `n_trajectories` HMC
trajectories from a cold start and report the acceptance rate. -/
noncomputable def run_hmc_simulation (N : ℕ) [NeZero N] (m2 lam : ℝ)
    (n_trajectories : ℕ) (step_size : ℝ) (n_md_steps : ℕ) (burn_in : ℕ)
    (rand : ℕ → (Fin N → ℝ) × ℝ) : Except SimError (RunResult N) :=
  if step_size ≤ 0 ∨ n_md_steps < 1 ∨ N < 2 then
    Except.error SimError.InvalidParameters
  else
    let final := (fun s => hmcStep m2 lam step_size n_md_steps rand s)^[
      n_trajectories] (initState N)
    Except.ok ⟨final, acceptanceRate final⟩

/-- Modelled from the spec: the sample mean of an observable time series, used
by every estimator of the missing `utils` module. -/
noncomputable def seriesMean (xs : List ℝ) : ℝ :=
  xs.sum / xs.length

/-- Modelled from the spec: the biased autocovariance at lag t of the missing
`utils` module, using the same sample mean for all lags. -/
noncomputable def autocov (xs : List ℝ) (t : ℕ) : ℝ :=
  (∑ i ∈ Finset.range (xs.length - t),
    (xs.getD i 0 - seriesMean xs) * (xs.getD (i + t) 0 - seriesMean xs))
    / xs.length

/-- Modelled from the spec: the normalized autocorrelation
ρ(t) = Cov(xᵢ, xᵢ₊ₜ)/Var(x) of the missing `utils` module. -/
noncomputable def rho (xs : List ℝ) (t : ℕ) : ℝ :=
  autocov xs t / autocov xs 0

/-- Modelled from the spec: τ_int = ½ + Σ_{t≥1} ρ(t) of the missing `utils`
module, summed with the automatic cutoff at the lag where ρ first crosses
zero. -/
noncomputable def tauInt (xs : List ℝ) : ℝ :=
  1 / 2 + (((List.range' 1 (xs.length - 1)).takeWhile
      (fun t => decide (0 < rho xs t))).map (fun t => rho xs t)).sum

/-- Modelled from the spec: `autocorrelation_function(series, max_lag)` of the
missing `utils` module — the list of (lag, ρ(lag)) for lags 0..max_lag; fails
with `InsufficientSamples` when the requested lag window reaches past the
series length. -/
noncomputable def autocorrelation_function (xs : List ℝ) (max_lag : ℕ) :
    Except SimError (List (ℕ × ℝ)) :=
  if xs.length ≤ max_lag then Except.error SimError.InsufficientSamples
  else Except.ok ((List.range (max_lag + 1)).map (fun t => (t, rho xs t)))

/-- Modelled from the spec: `integrated_autocorrelation_time(series)` of the
missing `utils` module; fails with `InsufficientSamples` on fewer than two
samples. -/
noncomputable def integrated_autocorrelation_time (xs : List ℝ) :
    Except SimError ℝ :=
  if xs.length < 2 then Except.error SimError.InsufficientSamples
  else Except.ok (tauInt xs)

/-- Modelled from the spec: `effective_sample_size(series)` = N/(2τ_int) of
the missing `utils` module; fails with `InsufficientSamples` on fewer than two
samples. -/
noncomputable def effective_sample_size (xs : List ℝ) : Except SimError ℝ :=
  if xs.length < 2 then Except.error SimError.InsufficientSamples
  else Except.ok ((xs.length : ℝ) / (2 * tauInt xs))

/-- Modelled from the spec: `jackknife_error(series)` of the missing `utils`
module — leave-one-out means, error √((n−1)/n · Σ(meanᵢ − mean)²); fails with
`InsufficientSamples` on fewer than two samples. -/
noncomputable def jackknife_error (xs : List ℝ) : Except SimError (ℝ × ℝ) :=
  if xs.length < 2 then Except.error SimError.InsufficientSamples
  else
    Except.ok (seriesMean xs,
      Real.sqrt ((((xs.length : ℝ) - 1) / (xs.length : ℝ))
        * (((List.range xs.length).map
            (fun i => (seriesMean (xs.eraseIdx i) - seriesMean xs) ^ 2)).sum)))

/-- Modelled from the spec: `bootstrap_error(series, n_resamples)` of the
missing `utils` module — resamples of size n with replacement (the random
stream `draw` supplies the indices), returning the overall mean and the
standard deviation of the resample means; fails with `InsufficientSamples` on
a zero-length series. -/
noncomputable def bootstrap_error (xs : List ℝ) (n_resamples : ℕ)
    (draw : ℕ → ℕ → ℕ) : Except SimError (ℝ × ℝ) :=
  if xs.length = 0 then Except.error SimError.InsufficientSamples
  else
    let rmeans := (List.range n_resamples).map (fun k =>
      seriesMean ((List.range xs.length).map
        (fun j => xs.getD (draw k j % xs.length) 0)))
    Except.ok (seriesMean xs,
      Real.sqrt (seriesMean (rmeans.map
        (fun mk => (mk - seriesMean rmeans) ^ 2))))

/-- Modelled from the spec: `binning_analysis(series)` of the missing `utils`
module — for each bin size, partition the series into contiguous bins, and
report the standard error of the bin means; fails with `InsufficientSamples`
on fewer than two samples. -/
noncomputable def binning_analysis (xs : List ℝ) :
    Except SimError (List (ℕ × ℝ)) :=
  if xs.length < 2 then Except.error SimError.InsufficientSamples
  else
    Except.ok ((List.range (xs.length / 2)).map (fun k =>
      let b := k + 1
      let nb := xs.length / b
      let bmeans := (List.range nb).map
        (fun i => seriesMean ((xs.drop (i * b)).take b))
      (b, Real.sqrt ((bmeans.map
        (fun m => (m - seriesMean bmeans) ^ 2)).sum
          / ((nb : ℝ) * ((nb : ℝ) - 1))))))

lemma fin_one_ne_zero (hN : 2 ≤ N) [NeZero N] : (1 : Fin N) ≠ 0 := by
  intro h
  have h1 : ((1 : Fin N) : ℕ) = 1 % N := Fin.val_one' N
  have h2 : 1 % N = 1 := Nat.mod_eq_of_lt (by omega)
  rw [h] at h1
  simp [h2] at h1

lemma fin_sub_one_ne (hN : 2 ≤ N) [NeZero N] (x : Fin N) : x - 1 ≠ x := by
  intro h
  exact fin_one_ne_zero hN (sub_eq_self.mp h)

lemma fin_add_one_ne (hN : 2 ≤ N) [NeZero N] (x : Fin N) : x + 1 ≠ x := by
  intro h
  exact fin_one_ne_zero hN (add_right_eq_self.mp h)

/-- Key decomposition: a single-site update changes the action by exactly the
O(1) local delta. -/
lemma action_update_sub [NeZero N] (hN : 2 ≤ N) (m2 lam : R) (φ : Fin N → R)
    (x : Fin N) (v : R) :
    action m2 lam (Function.update φ x v) - action m2 lam φ
      = local_action_delta m2 lam φ x v := by
  classical
  have hsub : x - 1 ≠ x := fin_sub_one_ne hN x
  have hadd : x + 1 ≠ x := fin_add_one_ne hN x
  have hprev : (x - 1) + 1 = x := sub_add_cancel x 1
  have hpairsum :
      (∑ y : Fin N,
        (siteTerm m2 lam (Function.update φ x v) y - siteTerm m2 lam φ y))
        = ∑ y ∈ ({x - 1, x} : Finset (Fin N)),
            (siteTerm m2 lam (Function.update φ x v) y
              - siteTerm m2 lam φ y) := by
    refine (Finset.sum_subset (Finset.subset_univ _) ?_).symm
    intro y _ hy
    simp only [Finset.mem_insert, Finset.mem_singleton, not_or] at hy
    obtain ⟨hy1, hy2⟩ := hy
    have hy3 : y + 1 ≠ x := by
      intro h
      exact hy1 (eq_sub_of_add_eq h)
    simp only [siteTerm, Function.update_noteq hy2, Function.update_noteq hy3,
      sub_self]
  have hgoal :
      action m2 lam (Function.update φ x v) - action m2 lam φ
        = ∑ y : Fin N,
            (siteTerm m2 lam (Function.update φ x v) y
              - siteTerm m2 lam φ y) := by
    rw [action, action, Finset.sum_sub_distrib]
  rw [hgoal, hpairsum, Finset.sum_pair hsub]
  simp only [siteTerm]
  rw [hprev]
  simp only [Function.update_same, Function.update_noteq hsub,
    Function.update_noteq hadd]
  rw [local_action_delta]
  ring

/-- Replaying updates while accumulating local deltas reproduces the
from-scratch action of the final configuration. -/
lemma incrementalAction_eq [NeZero N] (hN : 2 ≤ N) (m2 lam : R) :
    ∀ (us : List (Fin N × R)) (φ : Fin N → R),
      incrementalAction m2 lam φ (action m2 lam φ) us
        = action m2 lam (applyUpdates φ us) := by
  intro us
  induction us with
  | nil => intro φ; rfl
  | cons u us ih =>
      intro φ
      have hstep : action m2 lam φ + local_action_delta m2 lam φ u.1 u.2
          = action m2 lam (set φ u.1 u.2) := by
        rw [← action_update_sub hN m2 lam φ u.1 u.2, set]
        ring
      rw [incrementalAction, hstep, ih]
      rfl

/-- The `Fin N` rendering of the action agrees with the spec's literal
mod-N-indexed formula. -/
lemma action_eq_actionSpec [NeZero N] (m2 lam : R) (φ : Fin N → R) :
    action m2 lam φ = actionSpec m2 lam φ := by
  rw [action, actionSpec, ← Fin.sum_univ_eq_sum_range]
  refine Finset.sum_congr rfl ?_
  intro i _
  have hmod : (i : ℕ) % N = (i : ℕ) := Nat.mod_eq_of_lt i.isLt
  have hone : ((1 : Fin N) : ℕ) = 1 % N := Fin.val_one' N
  have h2 : (⟨(i : ℕ) % N, Nat.mod_lt _ (Nat.pos_of_ne_zero (NeZero.ne N))⟩ : Fin N)
      = i := Fin.ext hmod
  have h1 : (⟨((i : ℕ) + 1) % N,
        Nat.mod_lt _ (Nat.pos_of_ne_zero (NeZero.ne N))⟩ : Fin N) = i + 1 := by
    apply Fin.ext
    have hval : ((i + 1 : Fin N) : ℕ) = ((i : ℕ) + 1 % N) % N := by
      rw [Fin.add_def, hone]
    rw [hval]
    show ((i : ℕ) + 1) % N = ((i : ℕ) + 1 % N) % N
    conv_lhs => rw [Nat.add_mod]
    rw [hmod]
  rw [siteTerm, h1, h2]

/-- C1: for every lattice size N ≥ 2 (in particular 2 ≤ N ≤ 20), every site x
and every proposed value v, `local_action_delta(x, v)` equals the full action
recomputed after `set(x, v)` minus the full action before the update. -/
theorem local_action_delta_eq_action_diff [NeZero N] (hN : 2 ≤ N)
    (m2 lam : R) (φ : Fin N → R) (x : Fin N) (v : R) :
    local_action_delta m2 lam φ x v
      = action m2 lam (set φ x v) - action m2 lam φ :=
  (action_update_sub hN m2 lam φ x v).symm

/-- C1 witness: the identity instantiated on the concrete configuration
φ = (1, 2) of size N = 2 with m² = 1/2, λ = 1/4, updating site 0 to 5. -/
theorem local_action_delta_eq_action_diff_witness :
    local_action_delta (R := ℚ) (1/2) (1/4) ![1, 2] 0 5
      = action (1/2) (1/4) (set ![1, 2] 0 5) - action (1/2) (1/4) ![1, 2] :=
  local_action_delta_eq_action_diff (by norm_num) (1/2) (1/4) ![1, 2] 0 5

/-- C4: the action equals the spec's mod-N-indexed periodic sum S[φ], and the
incrementally maintained action value (initial action plus accumulated local
deltas over any list of accepted updates) equals the action recomputed from
scratch on the final configuration — exactly, in exact arithmetic. -/
theorem action_formula_and_incremental [NeZero N] (hN : 2 ≤ N) (m2 lam : R)
    (φ : Fin N → R) (us : List (Fin N × R)) :
    action m2 lam φ = actionSpec m2 lam φ
      ∧ incrementalAction m2 lam φ (action m2 lam φ) us
          = action m2 lam (applyUpdates φ us) :=
  ⟨action_eq_actionSpec m2 lam φ, incrementalAction_eq hN m2 lam us φ⟩

/-- C4 witness: instantiated on the concrete size-2 configuration (1, 2) with
updates set(0, 3) then set(1, −1), at m² = 1/2, λ = 1/4. -/
theorem action_formula_and_incremental_witness :
    action (R := ℚ) (1/2) (1/4) ![1, 2] = actionSpec (1/2) (1/4) ![1, 2]
      ∧ incrementalAction (R := ℚ) (1/2) (1/4) ![1, 2]
          (action (1/2) (1/4) ![1, 2]) [(0, 3), (1, -1)]
          = action (1/2) (1/4) (applyUpdates ![1, 2] [(0, 3), (1, -1)]) :=
  action_formula_and_incremental (R := ℚ) (N := 2) (by norm_num) (1/2) (1/4)
    ![1, 2] [(0, 3), (1, -1)]

lemma lfKick_lfKick [NeZero N] (m2 lam c : R)
    (s : (Fin N → R) × (Fin N → R)) :
    lfKick m2 lam (-c) (lfKick m2 lam c s) = s := by
  unfold lfKick
  refine Prod.ext rfl ?_
  funext x
  show (s.2 x + c * force m2 lam s.1 x) + (-c) * force m2 lam s.1 x = s.2 x
  ring

lemma lfDrift_lfDrift (ε : R) (s : (Fin N → R) × (Fin N → R)) :
    lfDrift (-ε) (lfDrift ε s) = s := by
  unfold lfDrift
  refine Prod.ext ?_ rfl
  funext x
  show (s.1 x + ε * s.2 x) + (-ε) * s.2 x = s.1 x
  ring

/-- Undoing j inner (kick, drift) iterations with step −ε after a trailing
backward drift recovers the backward drift of the starting state. -/
lemma leapfrog_inner_rev [NeZero N] (m2 lam ε : R) :
    ∀ (j : ℕ) (s : (Fin N → R) × (Fin N → R)),
      (fun t => lfDrift (-ε) (lfKick m2 lam (-ε) t))^[j]
          (lfDrift (-ε) ((fun t => lfDrift ε (lfKick m2 lam ε t))^[j] s))
        = lfDrift (-ε) s := by
  intro j
  induction j with
  | zero => intro s; rfl
  | succ j ih =>
      intro s
      rw [Function.iterate_succ_apply' (fun t => lfDrift ε (lfKick m2 lam ε t))
        j s]
      rw [Function.iterate_succ_apply
        (fun t => lfDrift (-ε) (lfKick m2 lam (-ε) t)) j]
      have hmid : ∀ u : (Fin N → R) × (Fin N → R),
          lfDrift (-ε) (lfKick m2 lam (-ε)
              (lfDrift (-ε) (lfDrift ε (lfKick m2 lam ε u))))
            = lfDrift (-ε) u := by
        intro u
        rw [lfDrift_lfDrift, lfKick_lfKick]
      show (fun t => lfDrift (-ε) (lfKick m2 lam (-ε) t))^[j]
          (lfDrift (-ε) (lfKick m2 lam (-ε)
            (lfDrift (-ε)
              (lfDrift ε (lfKick m2 lam ε
                ((fun t => lfDrift ε (lfKick m2 lam ε t))^[j] s))))))
        = lfDrift (-ε) s
      rw [hmid]
      exact ih s

/-- C2: for every (φ, p), every step size ε > 0 and every step count L ≥ 1,
running the leapfrog integrator L steps with step ε and then L steps with
step −ε from the result reproduces the original (φ, p) exactly (exact field
arithmetic standing in for floating point). -/
theorem leapfrog_reversible {K : Type} [LinearOrderedField K] {N : ℕ}
    [NeZero N] (m2 lam ε : K) (hε : 0 < ε) (L : ℕ) (hL : 1 ≤ L)
    (s : (Fin N → K) × (Fin N → K)) :
    leapfrog m2 lam (-ε) L (leapfrog m2 lam ε L s) = s := by
  unfold leapfrog
  rw [show (-ε) / 2 = -(ε / 2) by ring]
  rw [lfKick_lfKick m2 lam (ε / 2)]
  rw [leapfrog_inner_rev m2 lam ε (L - 1)
    (lfDrift ε (lfKick m2 lam (ε / 2) s))]
  rw [lfDrift_lfDrift ε (lfKick m2 lam (ε / 2) s)]
  rw [lfKick_lfKick]

/-- C2 witness: the round trip instantiated at ε = 1/10, L = 3 on the concrete
size-2 state φ = (0, 1), p = (1, 0) with m² = 1/2, λ = 1/4. -/
theorem leapfrog_reversible_witness :
    leapfrog (R := ℚ) (1/2) (1/4) (-(1/10)) 3
        (leapfrog (1/2) (1/4) (1/10) 3 (![0, 1], ![1, 0]))
      = (![0, 1], ![1, 0]) :=
  leapfrog_reversible (1/2) (1/4) (1/10) (by norm_num) 3 (by norm_num)
    (![0, 1], ![1, 0])

/-- C3: the computed acceptance probability min(1, exp(−ΔS)) always lies in
[0, 1]; a proposal is accepted iff the single uniform draw u satisfies
u < exp(−ΔS); hence every proposal with ΔS ≤ 0 and u ∈ [0, 1) is accepted
deterministically. -/
theorem metropolis_accept_rule (dS u : ℝ) :
    (0 ≤ acceptProb dS ∧ acceptProb dS ≤ 1)
      ∧ (metAccept dS u = true ↔ u < Real.exp (-dS))
      ∧ (dS ≤ 0 → 0 ≤ u → u < 1 → metAccept dS u = true) := by
  refine ⟨⟨le_min zero_le_one (Real.exp_pos _).le, min_le_left _ _⟩, ?_, ?_⟩
  · simp [metAccept]
  · intro hdS hu0 hu1
    have hexp : (1 : ℝ) ≤ Real.exp (-dS) := Real.one_le_exp (by linarith)
    simp only [metAccept, decide_eq_true_eq]
    linarith

/-- C3 witness: the rule instantiated at ΔS = 0, u = 0: a non-positive action
change with an in-range draw is accepted. -/
theorem metropolis_accept_rule_witness : metAccept 0 0 = true :=
  (metropolis_accept_rule 0 0).2.2 (le_refl 0) (le_refl 0) zero_lt_one

/-- C5: `force(site)` is the exact negative gradient of the action: the map
v ↦ action(set(site, v)) has derivative −force(site) at v = φ(site), with
force(site) = (φ(site+1) − 2φ(site) + φ(site−1)) − m²φ(site) − 4λφ(site)³. -/
theorem force_eq_neg_gradient {N : ℕ} [NeZero N] (hN : 2 ≤ N)
    (m2 lam : ℝ) (φ : Fin N → ℝ) (x : Fin N) :
    HasDerivAt (fun v => action m2 lam (set φ x v))
      (-(force m2 lam φ x)) (φ x) := by
  have hfun : (fun v => action m2 lam (set φ x v))
      = fun v => ((φ (x + 1) - v) ^ 2 / 2 + (v - φ (x - 1)) ^ 2 / 2
          + m2 * v ^ 2 / 2 + lam * v ^ 4)
        + (action m2 lam φ
          - ((φ (x + 1) - φ x) ^ 2 / 2 + (φ x - φ (x - 1)) ^ 2 / 2
            + m2 * φ x ^ 2 / 2 + lam * φ x ^ 4)) := by
    funext v
    have h := action_update_sub hN m2 lam φ x v
    rw [local_action_delta] at h
    rw [set]
    linarith
  rw [hfun]
  have h1 : HasDerivAt (fun v : ℝ => (φ (x + 1) - v) ^ 2 / 2)
      ((2 * (φ (x + 1) - φ x) ^ 1 * -1) / 2) (φ x) :=
    (((hasDerivAt_id (φ x)).const_sub (φ (x + 1))).pow 2).div_const 2
  have h2 : HasDerivAt (fun v : ℝ => (v - φ (x - 1)) ^ 2 / 2)
      ((2 * (φ x - φ (x - 1)) ^ 1 * 1) / 2) (φ x) :=
    (((hasDerivAt_id (φ x)).sub_const (φ (x - 1))).pow 2).div_const 2
  have h3 : HasDerivAt (fun v : ℝ => m2 * v ^ 2 / 2)
      ((m2 * (2 * φ x ^ 1 * 1)) / 2) (φ x) :=
    (((hasDerivAt_id (φ x)).pow 2).const_mul m2).div_const 2
  have h4 : HasDerivAt (fun v : ℝ => lam * v ^ 4)
      (lam * (4 * φ x ^ 3 * 1)) (φ x) :=
    ((hasDerivAt_id (φ x)).pow 4).const_mul lam
  have hall := (((h1.add h2).add h3).add h4).add_const
    (action m2 lam φ
      - ((φ (x + 1) - φ x) ^ 2 / 2 + (φ x - φ (x - 1)) ^ 2 / 2
        + m2 * φ x ^ 2 / 2 + lam * φ x ^ 4))
  have hD : -(force m2 lam φ x)
      = (((2 * (φ (x + 1) - φ x) ^ 1 * -1) / 2
          + (2 * (φ x - φ (x - 1)) ^ 1 * 1) / 2)
          + (m2 * (2 * φ x ^ 1 * 1)) / 2)
          + lam * (4 * φ x ^ 3 * 1) := by
    rw [force]
    ring
  rw [hD]
  exact hall

/-- C5 witness: the gradient identity instantiated on the concrete size-2
configuration φ = (0, 1) at site 0 with m² = 1, λ = 1. -/
theorem force_eq_neg_gradient_witness :
    HasDerivAt
      (fun v => action 1 1 (set (![0, 1] : Fin 2 → ℝ) 0 v))
      (-(force 1 1 (![0, 1] : Fin 2 → ℝ) 0)) ((![0, 1] : Fin 2 → ℝ) 0) :=
  force_eq_neg_gradient (by norm_num) 1 1 ![0, 1] 0

/-- C6: the HMC trajectory runs the integrator on a copy of (φ, p); on accept
(u < exp(−(H₁−H₀))) the canonical configuration is replaced by the evolved
φ′ = (leapfrog (φ, p)).1, and on reject it is returned exactly unchanged; the
momentum appears in neither outcome (it is discarded). -/
theorem hmc_trajectory_frame {N : ℕ} [NeZero N] (m2 lam eps : ℝ) (L : ℕ)
    (φ p : Fin N → ℝ) (u : ℝ) :
    (u < Real.exp (-(hamiltonian m2 lam (leapfrog m2 lam eps L (φ, p))
        - hamiltonian m2 lam (φ, p))) →
      hmcTrajectory m2 lam eps L φ p u
        = ((leapfrog m2 lam eps L (φ, p)).1, true))
    ∧ (¬ u < Real.exp (-(hamiltonian m2 lam (leapfrog m2 lam eps L (φ, p))
        - hamiltonian m2 lam (φ, p))) →
      hmcTrajectory m2 lam eps L φ p u = (φ, false)) := by
  constructor
  · intro h
    rw [hmcTrajectory, if_pos]
    simp only [metAccept, decide_eq_true_eq]
    exact h
  · intro h
    rw [hmcTrajectory, if_neg]
    simp only [metAccept, Bool.not_eq_true, decide_eq_false_iff_not]
    exact h

/-- C6 witness: an accepted trajectory on the concrete zero configuration of
size 2 (free theory, u = 0): the canonical field is replaced by the evolved
copy. -/
theorem hmc_trajectory_frame_witness :
    hmcTrajectory (N := 2) 0 0 1 1 (fun _ => 0) (fun _ => 0) 0
      = ((leapfrog 0 0 1 1 ((fun _ => 0), (fun _ => 0))).1, true) :=
  (hmc_trajectory_frame 0 0 1 1 (fun _ => 0) (fun _ => 0) 0).1
    (Real.exp_pos _)

/-- C7: `integrated_autocorrelation_time` never returns a negative value, and
on a perfectly uncorrelated series — all sample autocorrelations at lags ≥ 1
vanish, the deterministic rendering of an i.i.d. series — it degenerates to
exactly 0.5. -/
theorem tau_int_nonneg_and_iid :
    (∀ (xs : List ℝ) (r : ℝ),
        integrated_autocorrelation_time xs = Except.ok r → 0 ≤ r)
      ∧ (∀ xs : List ℝ, 2 ≤ xs.length →
          (∀ t, 1 ≤ t → t < xs.length → rho xs t = 0) →
          integrated_autocorrelation_time xs = Except.ok (1 / 2)) := by
  have hsum : ∀ xs : List ℝ,
      (0 : ℝ) ≤ (((List.range' 1 (xs.length - 1)).takeWhile
        (fun t => decide (0 < rho xs t))).map (fun t => rho xs t)).sum := by
    intro xs
    apply List.sum_nonneg
    intro y hy
    obtain ⟨t, ht, rfl⟩ := List.mem_map.mp hy
    have hp := List.mem_takeWhile_imp ht
    exact (of_decide_eq_true hp).le
  constructor
  · intro xs r hr
    by_cases h : xs.length < 2
    · rw [integrated_autocorrelation_time, if_pos h] at hr
      exact absurd hr (by simp)
    · rw [integrated_autocorrelation_time, if_neg h] at hr
      have : r = tauInt xs := by
        injection hr with h'
        exact h'.symm
      rw [this, tauInt]
      have := hsum xs
      linarith
  · intro xs hlen hzero
    have hnot : ¬ xs.length < 2 := by omega
    rw [integrated_autocorrelation_time, if_neg hnot]
    have hzero' : (((List.range' 1 (xs.length - 1)).takeWhile
        (fun t => decide (0 < rho xs t))).map (fun t => rho xs t)).sum = 0 := by
      apply List.sum_eq_zero
      intro y hy
      obtain ⟨t, ht, rfl⟩ := List.mem_map.mp hy
      have htl : t ∈ List.range' 1 (xs.length - 1) :=
        (List.takeWhile_sublist _).subset ht
      have hmem := List.mem_range'_1.mp htl
      exact hzero t hmem.1 (by omega)
    rw [tauInt, hzero']
    norm_num

/-- C7 witness: on the concrete two-sample series (0, 0), whose sample
autocorrelations at positive lags all vanish, τ_int is exactly 1/2. -/
theorem tau_int_nonneg_and_iid_witness :
    integrated_autocorrelation_time [(0 : ℝ), 0] = Except.ok (1 / 2) :=
  tau_int_nonneg_and_iid.2 [(0 : ℝ), 0] (by norm_num)
    (by
      intro t h1 h2
      simp only [List.length_cons, List.length_nil] at h2
      have ht : t = 1 := by omega
      subst ht
      simp [rho, autocov, seriesMean])

/-- C8: every statistical estimator fails with `InsufficientSamples` — rather
than returning a numeric result — when the input series is shorter than the
requested window: an autocorrelation lag window reaching past the series
length, fewer than two samples for τ_int / effective sample size / jackknife /
binning, or a bootstrap resample request on a zero-length series. -/
theorem estimators_insufficient_samples :
    (∀ (xs : List ℝ) (max_lag : ℕ), xs.length ≤ max_lag →
        autocorrelation_function xs max_lag
          = Except.error SimError.InsufficientSamples)
      ∧ (∀ xs : List ℝ, xs.length < 2 →
          integrated_autocorrelation_time xs
            = Except.error SimError.InsufficientSamples)
      ∧ (∀ xs : List ℝ, xs.length < 2 →
          effective_sample_size xs
            = Except.error SimError.InsufficientSamples)
      ∧ (∀ xs : List ℝ, xs.length < 2 →
          jackknife_error xs = Except.error SimError.InsufficientSamples)
      ∧ (∀ (xs : List ℝ) (m : ℕ) (draw : ℕ → ℕ → ℕ), xs.length = 0 →
          bootstrap_error xs m draw
            = Except.error SimError.InsufficientSamples)
      ∧ (∀ xs : List ℝ, xs.length < 2 →
          binning_analysis xs = Except.error SimError.InsufficientSamples) :=
  ⟨fun xs m h => by rw [autocorrelation_function, if_pos h],
   fun xs h => by rw [integrated_autocorrelation_time, if_pos h],
   fun xs h => by rw [effective_sample_size, if_pos h],
   fun xs h => by rw [jackknife_error, if_pos h],
   fun xs m draw h => by rw [bootstrap_error, if_pos h],
   fun xs h => by rw [binning_analysis, if_pos h]⟩

/-- C8 witness: the empty series makes the lag-window estimator, the
jackknife and a 5-resample bootstrap all fail with `InsufficientSamples`. -/
theorem estimators_insufficient_samples_witness :
    autocorrelation_function [] 0 = Except.error SimError.InsufficientSamples
      ∧ jackknife_error [] = Except.error SimError.InsufficientSamples
      ∧ bootstrap_error [] 5 (fun _ _ => 0)
          = Except.error SimError.InsufficientSamples :=
  ⟨estimators_insufficient_samples.1 [] 0 (le_refl 0),
   estimators_insufficient_samples.2.2.2.1 [] (by norm_num),
   estimators_insufficient_samples.2.2.2.2.1 [] 5 (fun _ _ => 0) rfl⟩

/-- C9: `run_simulation` fails with `InvalidParameters` exactly when
step_size ≤ 0, n_sweeps < burn_in or N < 2, and `run_hmc_simulation` exactly
when ε ≤ 0, L < 1 or N < 2; the failure happens before any sampling, and once
the parameters are validated the run cannot fail (it returns a result). -/
theorem run_parameter_validation (N : ℕ) [NeZero N] (m2 lam : ℝ)
    (n_sweeps : ℕ) (step_size : ℝ) (burn_in : ℕ) (rand : ℕ → ℝ × ℝ)
    (n_trajectories : ℕ) (eps : ℝ) (L : ℕ) (hmc_burn_in : ℕ)
    (hrand : ℕ → (Fin N → ℝ) × ℝ) :
    (run_simulation N m2 lam n_sweeps step_size burn_in rand
        = Except.error SimError.InvalidParameters
      ↔ (step_size ≤ 0 ∨ n_sweeps < burn_in ∨ N < 2))
    ∧ (¬ (step_size ≤ 0 ∨ n_sweeps < burn_in ∨ N < 2) →
        ∃ r, run_simulation N m2 lam n_sweeps step_size burn_in rand
          = Except.ok r)
    ∧ (run_hmc_simulation N m2 lam n_trajectories eps L hmc_burn_in hrand
        = Except.error SimError.InvalidParameters
      ↔ (eps ≤ 0 ∨ L < 1 ∨ N < 2))
    ∧ (¬ (eps ≤ 0 ∨ L < 1 ∨ N < 2) →
        ∃ r, run_hmc_simulation N m2 lam n_trajectories eps L hmc_burn_in
          hrand = Except.ok r) := by
  classical
  refine ⟨⟨?_, ?_⟩, ?_, ⟨?_, ?_⟩, ?_⟩
  · intro heq
    by_cases hc : step_size ≤ 0 ∨ n_sweeps < burn_in ∨ N < 2
    · exact hc
    · rw [run_simulation, if_neg hc] at heq
      exact absurd heq (by simp)
  · intro hc
    rw [run_simulation, if_pos hc]
  · intro hc
    rw [run_simulation, if_neg hc]
    exact ⟨_, rfl⟩
  · intro heq
    by_cases hc : eps ≤ 0 ∨ L < 1 ∨ N < 2
    · exact hc
    · rw [run_hmc_simulation, if_neg hc] at heq
      exact absurd heq (by simp)
  · intro hc
    rw [run_hmc_simulation, if_pos hc]
  · intro hc
    rw [run_hmc_simulation, if_neg hc]
    exact ⟨_, rfl⟩

/-- C9 witness: size-2 lattice — a Metropolis run with step_size = −1 and an
HMC run with L = 0 both fail with `InvalidParameters`. -/
theorem run_parameter_validation_witness :
    run_simulation 2 0 0 0 (-1) 0 (fun _ => (0, 0))
        = Except.error SimError.InvalidParameters
      ∧ run_hmc_simulation 2 0 0 0 1 0 0 (fun _ => (fun _ => 0, 0))
        = Except.error SimError.InvalidParameters :=
  ⟨(run_parameter_validation 2 0 0 0 (-1) 0 (fun _ => (0, 0)) 0 1 0 0
      (fun _ => (fun _ => 0, 0))).1.mpr (Or.inl (by norm_num)),
   (run_parameter_validation 2 0 0 0 (-1) 0 (fun _ => (0, 0)) 0 1 0 0
      (fun _ => (fun _ => 0, 0))).2.2.1.mpr (Or.inr (Or.inl (by norm_num)))⟩

lemma metSiteStep_counters {N : ℕ} [NeZero N] (m2 lam eps : ℝ)
    (rand : ℕ → ℝ × ℝ) (x : Fin N) (s : ChainState N) :
    (metSiteStep m2 lam eps rand x s).proposals = s.proposals + 1
      ∧ s.accepts ≤ (metSiteStep m2 lam eps rand x s).accepts
      ∧ (metSiteStep m2 lam eps rand x s).accepts ≤ s.accepts + 1 := by
  simp only [metSiteStep]
  split
  · exact ⟨rfl, Nat.le_succ _, le_refl _⟩
  · exact ⟨rfl, le_refl _, Nat.le_succ _⟩

lemma hmcStep_counters {N : ℕ} [NeZero N] (m2 lam eps : ℝ) (L : ℕ)
    (rand : ℕ → (Fin N → ℝ) × ℝ) (s : ChainState N) :
    (hmcStep m2 lam eps L rand s).proposals = s.proposals + 1
      ∧ s.accepts ≤ (hmcStep m2 lam eps L rand s).accepts
      ∧ (hmcStep m2 lam eps L rand s).accepts ≤ s.accepts + 1 := by
  simp only [hmcStep]
  split
  · exact ⟨trivial, Nat.le_succ _, le_refl _⟩
  · exact ⟨trivial, le_refl _, Nat.le_succ _⟩

lemma metSiteStep_inv {N : ℕ} [NeZero N] (m2 lam eps : ℝ)
    (rand : ℕ → ℝ × ℝ) (x : Fin N) (s : ChainState N)
    (h : s.accepts ≤ s.proposals) :
    (metSiteStep m2 lam eps rand x s).accepts
      ≤ (metSiteStep m2 lam eps rand x s).proposals := by
  obtain ⟨h1, _, h3⟩ := metSiteStep_counters m2 lam eps rand x s
  omega

lemma metFold_inv {N : ℕ} [NeZero N] (m2 lam eps : ℝ)
    (rand : ℕ → ℝ × ℝ) :
    ∀ (l : List (Fin N)) (s : ChainState N), s.accepts ≤ s.proposals →
      (l.foldl (fun t x => metSiteStep m2 lam eps rand x t) s).accepts
        ≤ (l.foldl (fun t x => metSiteStep m2 lam eps rand x t) s).proposals
  | [], s, h => h
  | x :: l, s, h =>
      metFold_inv m2 lam eps rand l (metSiteStep m2 lam eps rand x s)
        (metSiteStep_inv m2 lam eps rand x s h)

lemma metIterate_inv {N : ℕ} [NeZero N] (m2 lam eps : ℝ)
    (rand : ℕ → ℝ × ℝ) :
    ∀ (n : ℕ) (s : ChainState N), s.accepts ≤ s.proposals →
      ((fun t => metSweep m2 lam eps rand t)^[n] s).accepts
        ≤ ((fun t => metSweep m2 lam eps rand t)^[n] s).proposals := by
  intro n
  induction n with
  | zero => intro s h; exact h
  | succ n ih =>
      intro s h
      rw [Function.iterate_succ_apply]
      exact ih _ (metFold_inv m2 lam eps rand _ s h)

lemma hmcIterate_inv {N : ℕ} [NeZero N] (m2 lam eps : ℝ) (L : ℕ)
    (rand : ℕ → (Fin N → ℝ) × ℝ) :
    ∀ (n : ℕ) (s : ChainState N), s.accepts ≤ s.proposals →
      ((fun t => hmcStep m2 lam eps L rand t)^[n] s).accepts
        ≤ ((fun t => hmcStep m2 lam eps L rand t)^[n] s).proposals := by
  intro n
  induction n with
  | zero => intro s h; exact h
  | succ n ih =>
      intro s h
      rw [Function.iterate_succ_apply]
      refine ih _ ?_
      obtain ⟨h1, _, h3⟩ := hmcStep_counters m2 lam eps L rand s
      omega

/-- C10: every step of either sampler counts exactly one proposal and at most
one accept, so in every completed run accepts ≤ proposals and the reported
acceptance_rate = accepts/proposals lies in [0, 1]. -/
theorem acceptance_rate_in_unit_interval (N : ℕ) [NeZero N] (m2 lam : ℝ)
    (n_sweeps : ℕ) (step_size : ℝ) (burn_in : ℕ) (rand : ℕ → ℝ × ℝ)
    (n_trajectories : ℕ) (eps : ℝ) (L : ℕ) (hmc_burn_in : ℕ)
    (hrand : ℕ → (Fin N → ℝ) × ℝ) :
    (∀ (x : Fin N) (s : ChainState N),
        (metSiteStep m2 lam step_size rand x s).proposals = s.proposals + 1
        ∧ s.accepts ≤ (metSiteStep m2 lam step_size rand x s).accepts
        ∧ (metSiteStep m2 lam step_size rand x s).accepts ≤ s.accepts + 1)
    ∧ (∀ s : ChainState N,
        (hmcStep m2 lam eps L hrand s).proposals = s.proposals + 1
        ∧ s.accepts ≤ (hmcStep m2 lam eps L hrand s).accepts
        ∧ (hmcStep m2 lam eps L hrand s).accepts ≤ s.accepts + 1)
    ∧ (∀ r : RunResult N,
        run_simulation N m2 lam n_sweeps step_size burn_in rand
            = Except.ok r →
          r.acceptance_rate
              = (r.final.accepts : ℝ) / (r.final.proposals : ℝ)
            ∧ r.final.accepts ≤ r.final.proposals
            ∧ 0 ≤ r.acceptance_rate ∧ r.acceptance_rate ≤ 1)
    ∧ (∀ r : RunResult N,
        run_hmc_simulation N m2 lam n_trajectories eps L hmc_burn_in hrand
            = Except.ok r →
          r.acceptance_rate
              = (r.final.accepts : ℝ) / (r.final.proposals : ℝ)
            ∧ r.final.accepts ≤ r.final.proposals
            ∧ 0 ≤ r.acceptance_rate ∧ r.acceptance_rate ≤ 1) := by
  classical
  refine ⟨fun x s => metSiteStep_counters m2 lam step_size rand x s,
    fun s => hmcStep_counters m2 lam eps L hrand s, ?_, ?_⟩
  · intro r hr
    by_cases hc : step_size ≤ 0 ∨ n_sweeps < burn_in ∨ N < 2
    · rw [run_simulation, if_pos hc] at hr
      exact absurd hr (by simp)
    · rw [run_simulation, if_neg hc] at hr
      have hfin : r = ⟨(fun s => metSweep m2 lam step_size rand s)^[n_sweeps]
          (initState N),
        acceptanceRate ((fun s => metSweep m2 lam step_size rand s)^[n_sweeps]
          (initState N))⟩ := by
        injection hr with h'
        exact h'.symm
      subst hfin
      have hle : ((fun s => metSweep m2 lam step_size rand s)^[n_sweeps]
          (initState N)).accepts
          ≤ ((fun s => metSweep m2 lam step_size rand s)^[n_sweeps]
            (initState N)).proposals := by
        refine metIterate_inv m2 lam step_size rand n_sweeps (initState N) ?_
        exact le_refl 0
      refine ⟨rfl, hle, ?_, ?_⟩
      · exact div_nonneg (Nat.cast_nonneg _) (Nat.cast_nonneg _)
      · exact div_le_one_of_le (Nat.cast_le.mpr hle) (Nat.cast_nonneg _)
  · intro r hr
    by_cases hc : eps ≤ 0 ∨ L < 1 ∨ N < 2
    · rw [run_hmc_simulation, if_pos hc] at hr
      exact absurd hr (by simp)
    · rw [run_hmc_simulation, if_neg hc] at hr
      have hfin : r = ⟨(fun s => hmcStep m2 lam eps L hrand s)^[
          n_trajectories] (initState N),
        acceptanceRate ((fun s => hmcStep m2 lam eps L hrand s)^[
          n_trajectories] (initState N))⟩ := by
        injection hr with h'
        exact h'.symm
      subst hfin
      have hle : ((fun s => hmcStep m2 lam eps L hrand s)^[n_trajectories]
          (initState N)).accepts
          ≤ ((fun s => hmcStep m2 lam eps L hrand s)^[n_trajectories]
            (initState N)).proposals := by
        refine hmcIterate_inv m2 lam eps L hrand n_trajectories
          (initState N) ?_
        exact le_refl 0
      refine ⟨rfl, hle, ?_, ?_⟩
      · exact div_nonneg (Nat.cast_nonneg _) (Nat.cast_nonneg _)
      · exact div_le_one_of_le (Nat.cast_le.mpr hle) (Nat.cast_nonneg _)

/-- C10 witness: for the completed zero-sweep Metropolis run on the size-2
lattice, the reported acceptance rate is in [0, 1]. -/
theorem acceptance_rate_in_unit_interval_witness :
    0 ≤ acceptanceRate (initState 2) ∧ acceptanceRate (initState 2) ≤ 1 := by
  have h : run_simulation 2 0 0 0 1 0 (fun _ => (0, 0))
      = Except.ok ⟨initState 2, acceptanceRate (initState 2)⟩ := by
    rw [run_simulation, if_neg (by norm_num)]
    rfl
  have happ := (acceptance_rate_in_unit_interval 2 0 0 0 1 0
      (fun _ => (0, 0)) 0 1 1 0 (fun _ => (fun _ => 0, 0))).2.2.1
    ⟨initState 2, acceptanceRate (initState 2)⟩ h
  exact ⟨happ.2.2.1, happ.2.2.2⟩

end LatticeMCMC
